import Mathlib

/-!
Verification development for the result store and exploration orchestrator of
the Merlin_DSE repository (`src/autodse/database.py`, `src/autodse/__main__.py`).

The Python code is shallowly embedded: the Redis hash and the PickleDB file are
modelled as association lists from string keys to values, `queue.PriorityQueue`
(a min-heap of `(quality, timestamp, result)` triples) is modelled as a list
together with a `selectMin` operation that removes a minimal element under the
lexicographic order on `(quality, timestamp)`, and `pickle` serialization is
modelled as an injective encoding with an explicit corrupt-blob constructor so
that deserialization failure is representable.
-/

namespace Autodse

/-- Modelled from the spec: the return-code classification of `Result.RetCode`
in `autodse/result.py`, which is not under src/. The spec (section 3) lists the
outcome classes "success, timeout, evaluator error, invalid point". -/
inductive RetCode where
  | success
  | timedOut
  | evalError
  | invalidPoint
deriving DecidableEq

/-- Modelled from the spec: the `Result` value object of `autodse/result.py`,
which is not under src/. Fields follow spec section 3: an opaque design-point
reference, a totally ordered numeric quality (higher is better; modelled as
`Int`), a validity flag, a return code, and an optional output-slot path
assigned only at final output time. -/
structure Result where
  point : Option Nat
  quality : Int
  valid : Bool
  retCode : RetCode
  path : Option Nat
deriving DecidableEq

/-- Values committed to the database. `Database.commit` accepts `Any`; the
branches it distinguishes are `isinstance(result, Result)` and (for the
PickleDB backend's missing-key sentinel) booleans, so the value universe is
modelled as results, booleans and opaque other data. -/
inductive Value where
  | res (r : Result)
  | boolVal (b : Bool)
  | rawStr (s : String)
deriving DecidableEq

/-- The `isinstance(result, Result)` test of `database.py`. -/
def Value.isResultVal : Value → Bool
  | Value.res _ => true
  | _ => false

/-- The `isinstance(value, bool)` test of `PickleDatabase.query`. -/
def Value.isBool : Value → Bool
  | Value.boolVal _ => true
  | _ => false

/-- Serialized bytes as produced by `pickle.dumps`: either a faithful encoding
of a value, or corrupt bytes (on which `pickle.loads` raises). -/
inductive Blob where
  | enc (v : Value)
  | corrupt (code : Nat)
deriving DecidableEq

/-- The `pickle.dumps` call of `RedisDatabase.commit_impl`. -/
def dumps (v : Value) : Blob := Blob.enc v

/-- Exception classes relevant to the deserialization path. The source's
handlers name `ValueError`; CPython's `pickle.loads` raises
`pickle.UnpicklingError` (deriving from `PickleError` and `Exception`, not
from `ValueError`) or `EOFError` on corrupt bytes — that family is represented
by one constructor here. -/
inductive PyExc where
  | valueError
  | unpicklingError
deriving DecidableEq

/-- Whether an `except ValueError` clause catches a raised exception. -/
def catchesValueError : PyExc → Bool
  | PyExc.valueError => true
  | _ => false

/-- The `pickle.loads` call of `RedisDatabase.query` and `batch_query`: on
corrupt bytes it raises an `UnpicklingError`/`EOFError`, not a `ValueError`. -/
def loads : Blob → Except PyExc Value
  | Blob.enc v => Except.ok v
  | Blob.corrupt _ => Except.error PyExc.unpicklingError

/-- Association-list update mirroring a Redis `HSET` / Python dict store:
overwrite in place if the key exists, else append. -/
def hset {α : Type} (k : String) (b : α) : List (String × α) → List (String × α)
  | [] => [(k, b)]
  | kv :: rest => if k = kv.1 then (k, b) :: rest else kv :: hset k b rest

/-- Association-list lookup mirroring Redis `HGET` (and `hexists`). -/
def hget {α : Type} (k : String) : List (String × α) → Option α
  | [] => none
  | kv :: rest => if k = kv.1 then some kv.2 else hget k rest

/-- Redis `HMSET`: apply every binding of `data` to the store in order. -/
def hmset {α : Type} (data : List (String × α)) (s : List (String × α)) :
    List (String × α) :=
  data.foldl (fun acc kb => hset kb.1 kb.2 acc) s

/-- Redis `HMGET`: one optional blob per requested key, in key order. -/
def hmget {α : Type} (ks : List String) (s : List (String × α)) : List (Option α) :=
  ks.map (fun k2 => hget k2 s)

/-- One element of the best cache: `(result.quality, time(), result)` exactly as
pushed by `Database.update_best` (`database.py` line 98). -/
abbrev BCEntry := Int × Nat × Result

/-- The comparison `queue.PriorityQueue` performs on best-cache elements:
lexicographic on the quality and then the timestamp. With the distinct
timestamps produced by successive commits the third tuple component is never
compared. -/
def entryLE (a b : BCEntry) : Prop :=
  a.1 < b.1 ∨ (a.1 = b.1 ∧ a.2.1 ≤ b.2.1)

instance instDecidableEntryLE (a b : BCEntry) : Decidable (entryLE a b) := by
  unfold entryLE
  exact inferInstance

/-- Remove a minimal element under `entryLE` from a nonempty list, returning it
together with the remaining elements in their original order. This is the
semantic content of `PriorityQueue.get()` on the best cache. -/
def selectMin : BCEntry → List BCEntry → BCEntry × List BCEntry
  | e, [] => (e, [])
  | e, x :: xs =>
    if entryLE e (selectMin x xs).1 then (e, (selectMin x xs).1 :: (selectMin x xs).2)
    else ((selectMin x xs).1, e :: (selectMin x xs).2)

/-- `best_cache.get()`: pop the minimal entry (no-op on an empty cache). -/
def cacheGet : List BCEntry → List BCEntry
  | [] => []
  | e :: es => (selectMin e es).2

/-- Iterate `best_cache.get()` a fixed number of times. -/
def trimLoop : Nat → List BCEntry → List BCEntry
  | 0, c => c
  | n + 1, c => trimLoop n (cacheGet c)

/-- The supervising loop body `while db.best_cache.qsize() > db.best_cache_size:
db.best_cache.get()` of `__main__.py` lines 71-72, run to completion once no
concurrent writers remain: every `get` removes exactly one element, so the loop
executes `qsize - best_cache_size` times. -/
def trimCache (k : Nat) (c : List BCEntry) : List BCEntry :=
  trimLoop (c.length - k) c

/-- The materialization loop of `__main__.py` lines 219-230: `while not
best_cache.empty(): _, _, result = best_cache.get()`, collecting popped entries
in pop order (slot index order). Written with a fuel argument equal to the
cache length for structural recursion. -/
def drainLoop : Nat → List BCEntry → List BCEntry
  | 0, _ => []
  | _ + 1, [] => []
  | n + 1, e :: es =>
    let p := selectMin e es
    p.1 :: drainLoop n p.2

/-- Drain the whole best cache in `PriorityQueue.get()` order. -/
def drainCache (c : List BCEntry) : List BCEntry :=
  drainLoop c.length c

/-- The in-memory state of a `Database` instance: the backend hash
(key to pickled blob, as held by Redis under the run's `db_id`), the best
cache, the code hash set, and a logical clock standing for the strictly
increasing `time()` values used as tie-break timestamps. -/
structure DBState where
  store : List (String × Blob)
  bestCache : List BCEntry
  codeHashSet : Finset String
  clock : Nat
deriving DecidableEq

/-- A fresh `Database` (its `__init__`): empty backend namespace, empty best
cache, empty code hash set. -/
def emptyDB : DBState :=
  { store := [], bestCache := [], codeHashSet := ∅, clock := 0 }

/-- `Database.update_best` (`database.py` lines 84-101): push
`(result.quality, time(), result)` onto the best cache. The surrounding
try/except guards a `put` on an unbounded queue, which cannot fail, so the
operation is total. -/
def update_best (r : Result) (st : DBState) : DBState :=
  { st with
    bestCache := st.bestCache ++ [(r.quality, st.clock, r)]
    clock := st.clock + 1 }

/-- `Database.commit` specialized to `RedisDatabase.commit_impl` (which always
stores the pickled value and returns `True`): write the blob, then insert into
the best cache exactly when the value is a `Result`. -/
def redisCommit (k : String) (v : Value) (st : DBState) : DBState :=
  let st1 := { st with store := hset k (dumps v) st.store }
  match v with
  | Value.res r => update_best r st1
  | _ => st1

/-- A sequence of `commit` calls against the Redis-backed database. -/
def commitSeq (ps : List (String × Value)) (st : DBState) : DBState :=
  ps.foldl (fun s p => redisCommit p.1 p.2 s) st

/-- The results among a commit sequence, in commit order. -/
def resultsOf (ps : List (String × Value)) : List Result :=
  ps.filterMap (fun kv =>
    match kv.2 with
    | Value.res r => some r
    | _ => none)

/-- Best-cache entries a commit sequence produces: the i-th committed result
paired with its quality and its commit timestamp. -/
def specEntries (t : Nat) : List Result → List BCEntry
  | [] => []
  | r :: rs => (r.quality, t, r) :: specEntries (t + 1) rs

/-- Left-to-right construction of a Python dict from key/value pairs: an entry
for an already-present key overwrites its value in place, a new key is
appended, matching dict insertion-order semantics. -/
def buildDictAux (d : List (String × Blob)) : List (String × Value) → List (String × Blob)
  | [] => d
  | kv :: rest => buildDictAux (hset kv.1 (dumps kv.2) d) rest

/-- The dict comprehension `{key: pickle.dumps(result) for key, result in
pairs}` of `RedisDatabase.batch_commit_impl`: later pairs with the same key
overwrite earlier ones, and the dict length counts distinct keys. -/
def buildDict (pairs : List (String × Value)) : List (String × Blob) :=
  buildDictAux [] pairs

/-- The best-cache update loop of `Database.batch_commit` lines 136-138. -/
def updateBestSeq (pairs : List (String × Value)) (st : DBState) : DBState :=
  pairs.foldl
    (fun s kv =>
      match kv.2 with
      | Value.res r => update_best r s
      | _ => s)
    st

/-- Outcome of a store operation that may raise `RuntimeError`: either normal
return or a raised fatal error, each carrying the state at that moment. -/
inductive COut where
  | ok (st : DBState)
  | fatal (st : DBState)
deriving DecidableEq

/-- `Database.batch_commit` specialized to `RedisDatabase.batch_commit_impl`
(`database.py` lines 122-138 and 344-349): run `hmset` with the deduplicated
dict, compare the reported count against `len(pairs)`, raise on mismatch, and
only on success run the best-cache update loop. -/
def batch_commit (pairs : List (String × Value)) (st : DBState) : COut :=
  let data := buildDict pairs
  let st1 := { st with store := hmset data st.store }
  if data.length = pairs.length then COut.ok (updateBestSeq pairs st1)
  else COut.fatal st1

/-- `Database.commit` (`database.py` lines 103-120) over an abstract backend
`commit_impl`: a `none` from the adapter means `commit_impl` returned `False`,
upon which a `RuntimeError` is raised and the best cache is never touched; on
success the result is pushed into the best cache exactly when it is a
`Result` instance. -/
def databaseCommit (impl : List (String × Blob) → Option (List (String × Blob)))
    (v : Value) (st : DBState) : COut :=
  match impl st.store with
  | none => COut.fatal st
  | some s2 =>
    let st1 := { st with store := s2 }
    match v with
    | Value.res r => COut.ok (update_best r st1)
    | _ => COut.ok st1

/-- `RedisDatabase.commit_impl` (`database.py` lines 337-342): always stores
the pickled result and returns `True`. -/
def redisCommitImpl (k : String) (v : Value) (s : List (String × Blob)) :
    Option (List (String × Blob)) :=
  some (hset k (dumps v) s)

/-- `RedisDatabase.query` (`database.py` lines 300-312) with the raised/normal
distinction made explicit: `hexists` false yields `None`; otherwise
`pickle.loads` is attempted, and the `except ValueError` clause converts only
a raised `ValueError` to a logged `None` — the `UnpicklingError`/`EOFError`
that corrupt bytes actually produce propagates out of the call. -/
def redisQueryE (k : String) (s : List (String × Blob)) : Except PyExc (Option Value) :=
  match hget k s with
  | none => Except.ok none
  | some b =>
    match loads b with
    | Except.ok v => Except.ok (some v)
    | Except.error e =>
      if catchesValueError e then Except.ok none else Except.error e

/-- The loop body of `RedisDatabase.batch_query` (`database.py` lines
322-330): walk the `hmget` answers in order, appending `None` for a missing
blob, the decoded value for a well-formed blob, and a logged `None` on a
deserialization failure only when the raised exception is the `ValueError`
the handler names; any other exception propagates and aborts the whole call,
discarding the partial slot list. -/
def redisBatchLoop : List (Option Blob) → Except PyExc (List (Option Value))
  | [] => Except.ok []
  | ob :: rest =>
    match ob with
    | none => (redisBatchLoop rest).map (fun ds => none :: ds)
    | some b =>
      match loads b with
      | Except.ok v => (redisBatchLoop rest).map (fun ds => some v :: ds)
      | Except.error e =>
        if catchesValueError e then (redisBatchLoop rest).map (fun ds => none :: ds)
        else Except.error e

/-- `RedisDatabase.batch_query` (`database.py` lines 314-331): early return on
an empty key list, otherwise the loop over the `hmget` answers. -/
def redisBatchQuery (ks : List String) (s : List (String × Blob)) :
    Except PyExc (List (Option Value)) :=
  match ks with
  | [] => Except.ok []
  | _ => redisBatchLoop (hmget ks s)

/-- The `pickledb.get` call used by `PickleDatabase.query`: pickledb returns
`False` (a boolean) when the key is absent. -/
def pickledbGet (k : String) (db : List (String × Value)) : Value :=
  match hget k db with
  | some v => v
  | none => Value.boolVal false

/-- `PickleDatabase.query` (`database.py` lines 408-414): fetch under the
internal lock and map any boolean value (including the missing-key sentinel)
to `None`. -/
def pickle_query (k : String) (db : List (String × Value)) : Option Value :=
  let v := pickledbGet k db
  if v.isBool then none else some v

/-- `PickleDatabase.batch_query` (`database.py` lines 416-428): early return on
an empty key list, otherwise one slot per key in key order with booleans mapped
to `None`. -/
def pickle_batch_query (ks : List String) (db : List (String × Value)) :
    List (Option Value) :=
  match ks with
  | [] => []
  | _ =>
    ks.map (fun k2 =>
      let v := pickledbGet k2 db
      if v.isBool then none else some v)

/-- `PickleDatabase.commit_impl` (`database.py` lines 434-440): set the value
under the lock; always succeeds. -/
def pickleCommitImpl (k : String) (v : Value) (db : List (String × Value)) :
    List (String × Value) :=
  hset k v db

/-- `RedisDatabase.persist` (`database.py` lines 355-365): dump the mapping
from every key of the run's hash to its stored blob into the database file. -/
def redisPersist (st : DBState) : List (String × Blob) :=
  st.store

/-- The store rebuilt by `RedisDatabase.load` (`database.py` lines 277-293) on
a fresh instance: unpickle the dumped mapping and `hmset` it into the fresh,
empty hash namespace of the new `db_id`. -/
def redisLoadStore (file : List (String × Blob)) : List (String × Blob) :=
  hmset file []

/-- Serialized form produced by `jsonpickle.encode` in
`PickleDatabase.persist`; kept abstract as a faithful wrapper, per the spec's
section 4.1 round-trip requirement on the transport format. -/
inductive JBlob where
  | jenc (v : Value)
deriving DecidableEq

/-- The `jsonpickle.encode` call of `PickleDatabase.persist`. -/
def jsonpickleEncode (v : Value) : JBlob := JBlob.jenc v

/-- The `jsonpickle.decode` call of `PickleDatabase.load`. -/
def jsonpickleDecode : JBlob → Value
  | JBlob.jenc v => v

/-- `PickleDatabase.persist` (`database.py` lines 455-464): encode every stored
value and dump the file. -/
def picklePersist (db : List (String × Value)) : List (String × JBlob) :=
  db.map (fun kv => (kv.1, jsonpickleEncode kv.2))

/-- The decoding loop of `PickleDatabase.load` (`database.py` lines 391-406)
applied to a dumped file on a fresh instance. -/
def pickleLoad (file : List (String × JBlob)) : List (String × Value) :=
  file.map (fun kv => (kv.1, jsonpickleDecode kv.2))

/-- `Database.add_code_hash` (`database.py` lines 65-82): membership test then
insert; returns whether the hash was new. -/
def add_code_hash (h : String) (s : Finset String) : Bool × Finset String :=
  if h ∈ s then (false, s) else (true, insert h s)

/-- A sequence of `add_code_hash` calls against one store instance, collecting
the returned booleans and the final hash set. -/
def runHashes (s : Finset String) : List String → List Bool × Finset String
  | [] => ([], s)
  | h :: hs =>
    let p := add_code_hash h s
    let q := runHashes p.2 hs
    (p.1 :: q.1, q.2)

/-- The observable steps of `main` (`__main__.py` lines 193-235) once
exploration has been launched. -/
inductive FlowStep where
  | runExploration
  | catchInterrupt
  | logBestClose
  | commitBestStep
  | persistStep
  | summaryReport
  | materializeOutputs
  | outputReport
deriving DecidableEq

/-- Modelled from the spec: `Database.commit_best` is invoked at `__main__.py`
line 203 but its definition is not under src/ (only this caller is). Per the
spec's Draining description ("no new commits expected; store is persisted to
durable storage") the step completes without failure before `persist()` runs,
so it is modelled as one non-failing flow step. -/
def commitBestModel (st : DBState) : DBState := st

/-- The post-launch control flow of `main` (`__main__.py` lines 193-235):
`launch_exploration` either returns normally or is stopped by the operator's
`KeyboardInterrupt`, which the bare `except KeyboardInterrupt: pass` swallows;
either way the flow proceeds through `log_best_close`, `commit_best`,
`persist`, the summary report, the materialization loop and the output
report. -/
def mainShutdown (interrupted : Bool) : List FlowStep :=
  (if interrupted then [FlowStep.runExploration, FlowStep.catchInterrupt]
   else [FlowStep.runExploration]) ++
    [FlowStep.logBestClose, FlowStep.commitBestStep, FlowStep.persistStep,
     FlowStep.summaryReport, FlowStep.materializeOutputs, FlowStep.outputReport]

/-- Concrete result: an invalid evaluation carrying a high quality score. -/
def rInvalidHigh : Result :=
  { point := some 1, quality := 9, valid := false, retCode := RetCode.timedOut, path := none }

/-- Concrete result: a valid evaluation of quality 7, committed first of the tie. -/
def rValidSevenA : Result :=
  { point := some 2, quality := 7, valid := true, retCode := RetCode.success, path := none }

/-- Concrete result: a valid evaluation of quality 7, committed second of the tie. -/
def rValidSevenB : Result :=
  { point := some 3, quality := 7, valid := true, retCode := RetCode.success, path := none }

/-- Concrete commit sequence used to test the drained best cache. -/
def pairsC1 : List (String × Value) :=
  [("a", Value.res rInvalidHigh), ("b", Value.res rValidSevenA),
   ("c", Value.res rValidSevenB)]

/-- Concrete valid result of quality 1. -/
def rQualOne : Result :=
  { point := some 4, quality := 1, valid := true, retCode := RetCode.success, path := none }

/-- Concrete valid result of quality 2. -/
def rQualTwo : Result :=
  { point := some 5, quality := 2, valid := true, retCode := RetCode.success, path := none }

/-- Concrete two-element best cache at the start of materialization. -/
def cacheC2 : List BCEntry := [(1, 0, rQualOne), (2, 1, rQualTwo)]

/-- Concrete batch with pairwise distinct keys. -/
def okPairsC5 : List (String × Value) :=
  [("x", Value.res rQualOne), ("y", Value.res rQualTwo)]

/-- Concrete batch with a duplicated key, on which the backend dict collapses
two pairs into one and reports a short count. -/
def badPairsC5 : List (String × Value) :=
  [("y", Value.rawStr "v1"), ("y", Value.rawStr "v2")]

/-- The state given back by a successful concrete batch commit of
`okPairsC5` against a fresh database. -/
def batchOkState : DBState :=
  updateBestSeq okPairsC5 { emptyDB with store := hmset (buildDict okPairsC5) emptyDB.store }

/-- Concrete Redis store whose single record holds corrupt bytes. -/
def storeC8 : List (String × Blob) := [("c1", Blob.corrupt 0)]

/-- Concrete Redis store holding one well-formed record and one corrupt
record. -/
def storeC9 : List (String × Blob) :=
  [("k1", Blob.enc (Value.res rQualOne)), ("k2", Blob.corrupt 0)]


theorem entryLE_refl (a : BCEntry) : entryLE a a :=
  Or.inr ⟨rfl, le_refl _⟩

theorem entryLE_total (a b : BCEntry) : entryLE a b ∨ entryLE b a := by
  rcases lt_trichotomy a.1 b.1 with h | h | h
  · exact Or.inl (Or.inl h)
  · rcases le_total a.2.1 b.2.1 with ht | ht
    · exact Or.inl (Or.inr ⟨h, ht⟩)
    · exact Or.inr (Or.inr ⟨h.symm, ht⟩)
  · exact Or.inr (Or.inl h)

theorem entryLE_trans {a b c : BCEntry} (h1 : entryLE a b) (h2 : entryLE b c) :
    entryLE a c := by
  rcases h1 with h1 | ⟨e1, t1⟩
  · rcases h2 with h2 | ⟨e2, t2⟩
    · exact Or.inl (lt_trans h1 h2)
    · exact Or.inl (e2 ▸ h1)
  · rcases h2 with h2 | ⟨e2, t2⟩
    · exact Or.inl (e1 ▸ h2)
    · exact Or.inr ⟨e1.trans e2, t1.trans t2⟩

theorem selectMin_perm (e : BCEntry) (es : List BCEntry) :
    List.Perm ((selectMin e es).1 :: (selectMin e es).2) (e :: es) := by
  induction es generalizing e with
  | nil => simp [selectMin]
  | cons x xs ih =>
    by_cases h : entryLE e (selectMin x xs).1
    · simp only [selectMin, if_pos h]
      exact List.Perm.cons e (ih x)
    · simp only [selectMin, if_neg h]
      exact (List.Perm.swap e (selectMin x xs).1 (selectMin x xs).2).trans
        (List.Perm.cons e (ih x))

theorem selectMin_le (e : BCEntry) (es : List BCEntry) :
    ∀ x ∈ e :: es, entryLE (selectMin e es).1 x := by
  induction es generalizing e with
  | nil =>
    intro x hx
    rcases List.mem_singleton.mp hx with rfl
    simp [selectMin, entryLE_refl]
  | cons y ys ih =>
    intro x hx
    by_cases h : entryLE e (selectMin y ys).1
    · simp only [selectMin, if_pos h]
      rcases List.mem_cons.mp hx with rfl | hx2
      · exact entryLE_refl x
      · exact entryLE_trans h (ih y x hx2)
    · have h2 : entryLE (selectMin y ys).1 e := (entryLE_total e _).resolve_left h
      simp only [selectMin, if_neg h]
      rcases List.mem_cons.mp hx with rfl | hx2
      · exact h2
      · exact ih y x hx2

theorem cacheGet_subset {x : BCEntry} {c : List BCEntry} (h : x ∈ cacheGet c) :
    x ∈ c := by
  cases c with
  | nil => simp [cacheGet] at h
  | cons e es =>
    exact (selectMin_perm e es).mem_iff.mp (List.mem_cons_of_mem _ h)

theorem cacheGet_length (c : List BCEntry) : (cacheGet c).length = c.length - 1 := by
  cases c with
  | nil => rfl
  | cons e es =>
    have := (selectMin_perm e es).length_eq
    simp only [List.length_cons] at this
    simp only [cacheGet, List.length_cons]
    omega

theorem cacheGet_submset (c : List BCEntry) :
    (↑(cacheGet c) : Multiset BCEntry) ≤ ↑c := by
  cases c with
  | nil => simp [cacheGet]
  | cons e es =>
    have hperm : (↑((selectMin e es).1 :: (selectMin e es).2) : Multiset BCEntry) =
        ↑(e :: es) := Multiset.coe_eq_coe.mpr (selectMin_perm e es)
    calc (↑(cacheGet (e :: es)) : Multiset BCEntry)
        ≤ ↑((selectMin e es).1 :: (selectMin e es).2) := by
          simp only [cacheGet, ← Multiset.cons_coe]
          exact Multiset.le_cons_self _ _
      _ = ↑(e :: es) := hperm

theorem trimLoop_length (n : Nat) (c : List BCEntry) :
    (trimLoop n c).length = c.length - n := by
  induction n generalizing c with
  | zero => rfl
  | succ n ih =>
    simp only [trimLoop]
    rw [ih, cacheGet_length]
    omega

theorem trimLoop_submset (n : Nat) (c : List BCEntry) :
    (↑(trimLoop n c) : Multiset BCEntry) ≤ ↑c := by
  induction n generalizing c with
  | zero => exact le_refl _
  | succ n ih =>
    exact le_trans (ih (cacheGet c)) (cacheGet_submset c)

theorem trimLoop_mem {x : BCEntry} {n : Nat} {c : List BCEntry}
    (h : x ∈ trimLoop n c) : x ∈ c := by
  have := trimLoop_submset n c
  have hx : x ∈ (↑(trimLoop n c) : Multiset BCEntry) := by
    simpa using h
  simpa using Multiset.mem_of_le this hx

theorem trimLoop_dominates (n : Nat) (c : List BCEntry) :
    ∀ e ∈ c, e ∉ trimLoop n c → ∀ f ∈ trimLoop n c, entryLE e f := by
  induction n generalizing c with
  | zero =>
    intro e he hne f _
    exact absurd he hne
  | succ n ih =>
    intro e he hne f hf
    simp only [trimLoop] at hne hf
    by_cases hmem : e ∈ cacheGet c
    · exact ih (cacheGet c) e hmem hne f hf
    · cases c with
      | nil => simp at he
      | cons a es =>
        have he2 : e ∈ (selectMin a es).1 :: (selectMin a es).2 :=
          (selectMin_perm a es).mem_iff.mpr he
        have heq : e = (selectMin a es).1 := by
          rcases List.mem_cons.mp he2 with h0 | h0
          · exact h0
          · exact absurd h0 hmem
        have hf2 : f ∈ cacheGet (a :: es) := trimLoop_mem hf
        have hf3 : f ∈ a :: es :=
          (selectMin_perm a es).mem_iff.mp (List.mem_cons_of_mem _ hf2)
        exact heq ▸ selectMin_le a es f hf3

theorem drainLoop_mem {x : BCEntry} {n : Nat} {c : List BCEntry}
    (h : x ∈ drainLoop n c) : x ∈ c := by
  induction n generalizing c with
  | zero => simp [drainLoop] at h
  | succ n ih =>
    cases c with
    | nil => simp [drainLoop] at h
    | cons a es =>
      simp only [drainLoop] at h
      rcases List.mem_cons.mp h with rfl | h2
      · exact (selectMin_perm a es).mem_iff.mp (List.mem_cons_self _ _)
      · exact (selectMin_perm a es).mem_iff.mp
          (List.mem_cons_of_mem _ (ih h2))

theorem drainLoop_perm {n : Nat} {c : List BCEntry} (h : c.length ≤ n) :
    List.Perm (drainLoop n c) c := by
  induction n generalizing c with
  | zero =>
    have : c = [] := List.length_eq_zero.mp (Nat.le_zero.mp h)
    subst this
    exact List.Perm.refl _
  | succ n ih =>
    cases c with
    | nil => exact List.Perm.refl _
    | cons a es =>
      simp only [drainLoop]
      have hlen : (selectMin a es).2.length = es.length := by
        have := (selectMin_perm a es).length_eq
        simp only [List.length_cons] at this
        omega
      have hle : (selectMin a es).2.length ≤ n := by
        simp only [List.length_cons] at h
        omega
      exact (List.Perm.cons _ (ih hle)).trans (selectMin_perm a es)

theorem drainLoop_sorted (n : Nat) (c : List BCEntry) :
    List.Pairwise entryLE (drainLoop n c) := by
  induction n generalizing c with
  | zero => simp [drainLoop]
  | succ n ih =>
    cases c with
    | nil => simp [drainLoop]
    | cons a es =>
      simp only [drainLoop]
      refine List.Pairwise.cons ?_ (ih (selectMin a es).2)
      intro y hy
      have hy2 : y ∈ a :: es :=
        (selectMin_perm a es).mem_iff.mp (List.mem_cons_of_mem _ (drainLoop_mem hy))
      exact selectMin_le a es y hy2


theorem hget_hset_self {α : Type} (k : String) (b : α) (s : List (String × α)) :
    hget k (hset k b s) = some b := by
  induction s with
  | nil => simp [hset, hget]
  | cons kv rest ih =>
    by_cases h : k = kv.1
    · simp [hset, hget, h]
    · simp [hset, hget, h, ih]

theorem hget_hset_ne {α : Type} {k2 k : String} (h : k2 ≠ k) (b : α)
    (s : List (String × α)) : hget k2 (hset k b s) = hget k2 s := by
  induction s with
  | nil => simp [hset, hget, h]
  | cons kv rest ih =>
    by_cases h2 : k = kv.1
    · subst h2
      simp [hset, hget, h]
    · simp only [hset, if_neg h2]
      by_cases h3 : k2 = kv.1
      · simp [hget, h3]
      · simp [hget, h3, ih]

theorem mem_keys_hset {α : Type} (k2 k : String) (b : α) (s : List (String × α)) :
    k2 ∈ (hset k b s).map Prod.fst ↔ k2 = k ∨ k2 ∈ s.map Prod.fst := by
  induction s with
  | nil => simp [hset]
  | cons kv rest ih =>
    by_cases h : k = kv.1
    · subst h
      simp [hset]
    · simp only [hset, if_neg h, List.map_cons, List.mem_cons, ih]
      tauto

theorem keys_nodup_hset {α : Type} (k : String) (b : α) {s : List (String × α)}
    (h : (s.map Prod.fst).Nodup) : ((hset k b s).map Prod.fst).Nodup := by
  induction s with
  | nil => simp [hset]
  | cons kv rest ih =>
    simp only [List.map_cons, List.nodup_cons] at h
    by_cases h2 : k = kv.1
    · subst h2
      simpa [hset] using h
    · simp only [hset, if_neg h2, List.map_cons, List.nodup_cons]
      refine ⟨?_, ih h.2⟩
      rw [mem_keys_hset]
      push_neg
      exact ⟨fun he => h2 he.symm, h.1⟩

theorem hget_none_iff {α : Type} (k : String) (s : List (String × α)) :
    hget k s = none ↔ k ∉ s.map Prod.fst := by
  induction s with
  | nil => simp [hget]
  | cons kv rest ih =>
    by_cases h : k = kv.1
    · simp [hget, h]
    · simp [hget, h, ih]

theorem hget_some_mem {α : Type} {k : String} {b : α} {s : List (String × α)}
    (h : hget k s = some b) : (k, b) ∈ s := by
  induction s with
  | nil => simp [hget] at h
  | cons kv rest ih =>
    by_cases h2 : k = kv.1
    · simp only [hget, if_pos h2] at h
      have hb := Option.some.inj h
      subst h2
      rw [← hb, Prod.mk.eta]
      exact List.mem_cons_self _ _
    · simp only [hget, if_neg h2] at h
      exact List.mem_cons_of_mem _ (ih h)

theorem hmset_cons {α : Type} (kb : String × α) (data s : List (String × α)) :
    hmset (kb :: data) s = hmset data (hset kb.1 kb.2 s) := by
  simp [hmset, List.foldl]

theorem hget_hmset_notmem {α : Type} {k : String} {data : List (String × α)}
    (s : List (String × α)) (h : k ∉ data.map Prod.fst) :
    hget k (hmset data s) = hget k s := by
  induction data generalizing s with
  | nil => simp [hmset]
  | cons kb rest ih =>
    simp only [List.map_cons, List.mem_cons] at h
    push_neg at h
    rw [hmset_cons, ih _ h.2, hget_hset_ne h.1]

theorem hget_hmset_of_mem {α : Type} {k : String} {b : α} {data : List (String × α)}
    (s : List (String × α)) (hn : (data.map Prod.fst).Nodup) (hm : (k, b) ∈ data) :
    hget k (hmset data s) = some b := by
  induction data generalizing s with
  | nil => simp at hm
  | cons kb rest ih =>
    simp only [List.map_cons, List.nodup_cons] at hn
    rw [hmset_cons]
    rcases List.mem_cons.mp hm with rfl | hm2
    · rw [hget_hmset_notmem _ hn.1]
      exact hget_hset_self k b s
    · exact ih _ hn.2 hm2

theorem buildDictAux_cons (d : List (String × Blob)) (kv : String × Value)
    (rest : List (String × Value)) :
    buildDictAux d (kv :: rest) = buildDictAux (hset kv.1 (dumps kv.2) d) rest := rfl

theorem mem_keys_buildDictAux (k : String) (d : List (String × Blob))
    (ps : List (String × Value)) :
    k ∈ (buildDictAux d ps).map Prod.fst ↔
      k ∈ d.map Prod.fst ∨ k ∈ ps.map Prod.fst := by
  induction ps generalizing d with
  | nil => simp [buildDictAux]
  | cons kv rest ih =>
    rw [buildDictAux_cons, ih]
    simp only [mem_keys_hset, List.map_cons, List.mem_cons]
    tauto

theorem keys_nodup_buildDictAux {d : List (String × Blob)}
    (ps : List (String × Value)) (h : (d.map Prod.fst).Nodup) :
    ((buildDictAux d ps).map Prod.fst).Nodup := by
  induction ps generalizing d with
  | nil => exact h
  | cons kv rest ih =>
    rw [buildDictAux_cons]
    exact ih (keys_nodup_hset _ _ h)

theorem buildDictAux_hget_notmem {k : String} (d : List (String × Blob))
    {ps : List (String × Value)} (h : k ∉ ps.map Prod.fst) :
    hget k (buildDictAux d ps) = hget k d := by
  induction ps generalizing d with
  | nil => rfl
  | cons kv rest ih =>
    simp only [List.map_cons, List.mem_cons] at h
    push_neg at h
    rw [buildDictAux_cons, ih _ h.2, hget_hset_ne h.1]

theorem buildDictAux_hget_mem (d : List (String × Blob)) {kv : String × Value}
    {ps : List (String × Value)} (hn : (ps.map Prod.fst).Nodup) (hm : kv ∈ ps) :
    hget kv.1 (buildDictAux d ps) = some (dumps kv.2) := by
  induction ps generalizing d with
  | nil => simp at hm
  | cons p rest ih =>
    simp only [List.map_cons, List.nodup_cons] at hn
    rcases List.mem_cons.mp hm with rfl | hm2
    · rw [buildDictAux_cons, buildDictAux_hget_notmem _ hn.1]
      exact hget_hset_self _ _ _
    · rw [buildDictAux_cons]
      exact ih _ hn.2 hm2

theorem buildDict_length_nodup {ps : List (String × Value)}
    (h : (buildDict ps).length = ps.length) : (ps.map Prod.fst).Nodup := by
  have hmem : ∀ x, x ∈ (buildDict ps).map Prod.fst ↔ x ∈ ps.map Prod.fst := by
    intro x
    have := mem_keys_buildDictAux x [] ps
    simpa [buildDict] using this
  have hnd : ((buildDict ps).map Prod.fst).Nodup :=
    keys_nodup_buildDictAux ps (by simp)
  have hfin : ((buildDict ps).map Prod.fst).toFinset = (ps.map Prod.fst).toFinset := by
    ext x
    simp only [List.mem_toFinset]
    exact hmem x
  have hlen1 : ((buildDict ps).map Prod.fst).length = (buildDict ps).length :=
    List.length_map _ _
  have hded1 : ((buildDict ps).map Prod.fst).dedup = (buildDict ps).map Prod.fst :=
    hnd.dedup
  have hcard : ((buildDict ps).map Prod.fst).toFinset.card =
      ((buildDict ps).map Prod.fst).dedup.length := List.card_toFinset _
  have hcard2 : (ps.map Prod.fst).toFinset.card = (ps.map Prod.fst).dedup.length :=
    List.card_toFinset _
  have hlen2 : (ps.map Prod.fst).dedup.length = (ps.map Prod.fst).length := by
    have := hcard2 ▸ (hfin ▸ hcard)
    rw [hded1, hlen1, h] at this
    simp only [List.length_map]
    omega
  have heq : (ps.map Prod.fst).dedup = ps.map Prod.fst :=
    (List.dedup_sublist _).eq_of_length hlen2
  rw [← heq]
  exact List.nodup_dedup _

theorem redisCommit_store (k : String) (v : Value) (st : DBState) :
    (redisCommit k v st).store = hset k (dumps v) st.store := by
  cases v <;> simp [redisCommit, update_best]

theorem commitSeq_cons (p : String × Value) (ps : List (String × Value))
    (st : DBState) : commitSeq (p :: ps) st = commitSeq ps (redisCommit p.1 p.2 st) :=
  rfl

theorem commitSeq_cache (ps : List (String × Value)) (st : DBState) :
    (commitSeq ps st).bestCache = st.bestCache ++ specEntries st.clock (resultsOf ps) := by
  induction ps generalizing st with
  | nil => simp [commitSeq, resultsOf, specEntries]
  | cons p rest ih =>
    rw [commitSeq_cons]
    cases hp : p.2 with
    | res r =>
      rw [ih]
      simp [redisCommit, hp, update_best, resultsOf, specEntries, List.filterMap_cons]
    | boolVal b =>
      rw [ih]
      simp [redisCommit, hp, resultsOf, specEntries, List.filterMap_cons]
    | rawStr s2 =>
      rw [ih]
      simp [redisCommit, hp, resultsOf, specEntries, List.filterMap_cons]

theorem updateBestSeq_store (ps : List (String × Value)) (st : DBState) :
    (updateBestSeq ps st).store = st.store := by
  induction ps generalizing st with
  | nil => rfl
  | cons p rest ih =>
    cases hp : p.2 <;> simp [updateBestSeq, List.foldl, hp, update_best] <;>
      simpa [updateBestSeq, update_best] using ih _

theorem commitSeq_store_nodup (ps : List (String × Value)) {st : DBState}
    (h : (st.store.map Prod.fst).Nodup) :
    ((commitSeq ps st).store.map Prod.fst).Nodup := by
  induction ps generalizing st with
  | nil => exact h
  | cons p rest ih =>
    rw [commitSeq_cons]
    refine ih ?_
    rw [redisCommit_store]
    exact keys_nodup_hset _ _ h


/-- C1 (amended): for every sequence of commits, the best cache holds exactly
the committed results tagged with their qualities and strictly increasing
commit timestamps, and after draining (the supervising trim loop run with no
concurrent writers left) it contains at most `bestCacheSize` entries — exactly
`min bestCacheSize n` of them — which form a sub-multiset of the committed
entries such that every evicted entry is `entryLE`-below every retained entry.
Under the lexicographic `(quality, timestamp)` order this means the retained
entries are the `bestCacheSize` greatest committed results by quality,
regardless of validity, with ties among equal qualities resolved in favor of
the latest-committed result. -/
theorem claim1_drained_topK (k : Nat) (ps : List (String × Value)) :
    (commitSeq ps emptyDB).bestCache = specEntries 0 (resultsOf ps) ∧
    (trimCache k (commitSeq ps emptyDB).bestCache).length =
      min k (commitSeq ps emptyDB).bestCache.length ∧
    (↑(trimCache k (commitSeq ps emptyDB).bestCache) : Multiset BCEntry) ≤
      ↑(commitSeq ps emptyDB).bestCache ∧
    (∀ e ∈ (commitSeq ps emptyDB).bestCache,
      e ∉ trimCache k (commitSeq ps emptyDB).bestCache →
      ∀ f ∈ trimCache k (commitSeq ps emptyDB).bestCache, entryLE e f) := by
  refine ⟨?_, ?_, ?_, ?_⟩
  · have := commitSeq_cache ps emptyDB
    simpa [emptyDB] using this
  · simp only [trimCache]
    rw [trimLoop_length]
    omega
  · exact trimLoop_submset _ _
  · exact trimLoop_dominates _ _

/-- C1 witness: the drained-cache theorem applied to the concrete commit
sequence `pairsC1` with `bestCacheSize = 1`, instantiating the domination
clause at the evicted entry of `rValidSevenA` and the retained entry of
`rInvalidHigh`. -/
theorem claim1_drained_topK_witness :
    (commitSeq pairsC1 emptyDB).bestCache = specEntries 0 (resultsOf pairsC1) ∧
    (trimCache 1 (commitSeq pairsC1 emptyDB).bestCache).length =
      min 1 (commitSeq pairsC1 emptyDB).bestCache.length ∧
    entryLE (7, 1, rValidSevenA) (9, 0, rInvalidHigh) := by
  obtain ⟨h1, h2, _, h4⟩ := claim1_drained_topK 1 pairsC1
  exact ⟨h1, h2, h4 (7, 1, rValidSevenA) (by decide) (by decide)
    (9, 0, rInvalidHigh) (by decide)⟩

/-- C1 counterexample: commit an invalid result of quality 9 and then two
valid results of quality 7 into a store with `bestCacheSize = 1`. The claim
says the drained cache holds exactly the one highest-quality valid result
(`rValidSevenA`, the earlier of the quality-7 tie). The code instead retains
only the invalid quality-9 result; moreover with `bestCacheSize = 2` the trim
evicts the earliest-committed of the quality-7 tie (`rValidSevenA`) and keeps
the later one, the opposite of the claimed tie-break. -/
theorem claim1_counterexample :
    trimCache 1 (commitSeq pairsC1 emptyDB).bestCache = [(9, 0, rInvalidHigh)] ∧
    rInvalidHigh.valid = false ∧
    rValidSevenA.valid = true ∧ rValidSevenA.quality = 7 ∧
    rValidSevenB.valid = true ∧ rValidSevenB.quality = 7 ∧
    trimCache 2 (commitSeq pairsC1 emptyDB).bestCache =
      [(9, 0, rInvalidHigh), (7, 2, rValidSevenB)] := by
  decide

/-- C2 (amended): the materialization loop pops the single lowest-quality
remaining entry of the best cache first (the min-heap root), until the cache
is empty; the popped sequence is a permutation of the cache sorted ascending
under the `(quality, timestamp)` order, so numbered output slots are assigned
in ascending quality order and slot 0 holds the lowest-quality retained
result, with the best retained result in the last slot. -/
theorem claim2_drain_order (c : List BCEntry) :
    List.Pairwise entryLE (drainCache c) ∧ List.Perm (drainCache c) c := by
  exact ⟨drainLoop_sorted _ _, drainLoop_perm (le_refl _)⟩

/-- C2 counterexample: draining the concrete two-entry cache `cacheC2`
(qualities 1 and 2) pops the quality-1 entry first, so output slot 0 receives
quality 1 even though a quality-2 entry is retained — the claim's assertion
that slots are assigned in descending quality order with slot 0 the best is
false on this input. -/
theorem claim2_counterexample :
    drainCache cacheC2 = [(1, 0, rQualOne), (2, 1, rQualTwo)] ∧
    (drainCache cacheC2).head?.map (fun e => e.1) = some 1 ∧
    (2, 1, rQualTwo) ∈ cacheC2 ∧ (1 : Int) < 2 := by
  decide


/-- C3: whether exploration ends with every worker finished
(`interrupted = false`) or is cut short by the operator's cancellation signal
(`KeyboardInterrupt`, caught by the bare handler), the flow of `main`
continues into draining and invokes `persist()` on the database after
exploration has stopped. -/
theorem claim3_persist_after_stop (interrupted : Bool) :
    ∃ pre post, mainShutdown interrupted = pre ++ FlowStep.persistStep :: post ∧
      FlowStep.runExploration ∈ pre := by
  cases interrupted
  · exact ⟨[FlowStep.runExploration, FlowStep.logBestClose, FlowStep.commitBestStep],
      [FlowStep.summaryReport, FlowStep.materializeOutputs, FlowStep.outputReport],
      rfl, by decide⟩
  · exact ⟨[FlowStep.runExploration, FlowStep.catchInterrupt, FlowStep.logBestClose,
      FlowStep.commitBestStep],
      [FlowStep.summaryReport, FlowStep.materializeOutputs, FlowStep.outputReport],
      rfl, by decide⟩

theorem runHashes_snd (s : Finset String) (calls : List String) :
    (runHashes s calls).2 = s ∪ calls.toFinset := by
  induction calls generalizing s with
  | nil => simp [runHashes]
  | cons c rest ih =>
    by_cases hm : c ∈ s
    · simp only [runHashes, add_code_hash, if_pos hm, ih, List.toFinset_cons,
        Finset.union_insert]
      rw [Finset.insert_eq_self.mpr (Finset.mem_union_left _ hm)]
    · simp only [runHashes, add_code_hash, if_neg hm, ih, List.toFinset_cons,
        Finset.union_insert, Finset.insert_union]

theorem runHashes_append (s : Finset String) (l1 l2 : List String) :
    (runHashes s (l1 ++ l2)).1 =
      (runHashes s l1).1 ++ (runHashes (runHashes s l1).2 l2).1 := by
  induction l1 generalizing s with
  | nil => simp [runHashes]
  | cons c rest ih => simp [runHashes, ih]

/-- C4: `add_code_hash` returns `True` exactly when the hash is not yet in the
dedup set, always leaves the hash present afterwards, is a strict no-op
(returning `False` and the unchanged set) when the hash is already present —
so a repeated call returns `False` and leaves the set unchanged — and, run as
a call sequence from a fresh store instance, the call on `h` after any prefix
of calls returns `True` exactly when `h` did not occur in the prefix. -/
theorem claim4_add_code_hash (s : Finset String) (h : String) :
    ((add_code_hash h s).1 = true ↔ h ∉ s) ∧
    (add_code_hash h s).2 = insert h s ∧
    (h ∈ s → add_code_hash h s = (false, s)) ∧
    add_code_hash h ((add_code_hash h s).2) = (false, insert h s) ∧
    (∀ pre : List String,
      (runHashes ∅ (pre ++ [h])).1.getLast? = some (decide (h ∉ pre))) := by
  refine ⟨?_, ?_, ?_, ?_, ?_⟩
  · by_cases hm : h ∈ s <;> simp [add_code_hash, hm]
  · by_cases hm : h ∈ s
    · simp only [add_code_hash, if_pos hm]
      exact (Finset.insert_eq_self.mpr hm).symm
    · simp [add_code_hash, hm]
  · intro hm
    simp [add_code_hash, hm]
  · by_cases hm : h ∈ s
    · simp [add_code_hash, hm, Finset.insert_eq_self.mpr hm]
    · simp [add_code_hash, hm]
  · intro pre
    rw [runHashes_append]
    have hsnd := runHashes_snd ∅ pre
    by_cases hm : h ∈ pre
    · have hmem : h ∈ (runHashes ∅ pre).2 := by
        rw [hsnd]
        simp [List.mem_toFinset, hm]
      simp [runHashes, add_code_hash, hmem, List.getLast?_concat, hm]
    · have hmem : h ∉ (runHashes ∅ pre).2 := by
        rw [hsnd]
        simp [List.mem_toFinset, hm]
      simp [runHashes, add_code_hash, hmem, List.getLast?_concat, hm]

/-- C4 witness: the theorem applied to the concrete set containing exactly the
hash being re-added, and to the concrete call sequence where a second call on
the same hash follows a first. -/
theorem claim4_witness :
    add_code_hash "h1" (insert "h1" (∅ : Finset String)) =
      (false, insert "h1" (∅ : Finset String)) ∧
    (runHashes ∅ (["h1"] ++ ["h1"])).1.getLast? = some (decide ("h1" ∉ ["h1"])) := by
  obtain ⟨_, _, c3, _, c5⟩ := claim4_add_code_hash (insert "h1" ∅) "h1"
  exact ⟨c3 (by decide), c5 ["h1"]⟩

/-- C5: a batch commit that returns normally had its backend dict report a
count equal to the number of pairs, and every pair of the batch is then
present in the store under its key with its serialized value; whenever the
reported count differs from the number of pairs (which the Redis backend's
dict comprehension produces exactly when the batch repeats a key),
`batch_commit` raises the fatal `RuntimeError` and the best cache is left
untouched — no entry of the batch is inserted. -/
theorem claim5_batch_commit (pairs : List (String × Value)) (st : DBState) :
    (∀ st2, batch_commit pairs st = COut.ok st2 →
      (buildDict pairs).length = pairs.length ∧
      ∀ kv ∈ pairs, hget kv.1 st2.store = some (dumps kv.2)) ∧
    ((buildDict pairs).length ≠ pairs.length →
      ∃ st2, batch_commit pairs st = COut.fatal st2 ∧
        st2.bestCache = st.bestCache) := by
  constructor
  · intro st2 hok
    by_cases hlen : (buildDict pairs).length = pairs.length
    · refine ⟨hlen, ?_⟩
      have hok2 : st2 =
          updateBestSeq pairs { st with store := hmset (buildDict pairs) st.store } := by
        simp only [batch_commit, if_pos hlen, COut.ok.injEq] at hok
        exact hok.symm
      have hnodup := buildDict_length_nodup hlen
      intro kv hkv
      have hl : hget kv.1 (buildDict pairs) = some (dumps kv.2) :=
        buildDictAux_hget_mem [] hnodup hkv
      have hmem : (kv.1, dumps kv.2) ∈ buildDict pairs := hget_some_mem hl
      have hkeys : ((buildDict pairs).map Prod.fst).Nodup :=
        keys_nodup_buildDictAux pairs (by simp)
      rw [hok2, updateBestSeq_store]
      exact hget_hmset_of_mem st.store hkeys hmem
    · exfalso
      simp [batch_commit, hlen] at hok
  · intro hlen
    exact ⟨{ st with store := hmset (buildDict pairs) st.store },
      by simp [batch_commit, hlen], rfl⟩

/-- C5 witness: the theorem applied to a concrete duplicate-free batch (all
pairs stored, count matches) and to a concrete batch with a repeated key
(fatal error, best cache untouched). -/
theorem claim5_witness :
    ((buildDict okPairsC5).length = okPairsC5.length ∧
      ∀ kv ∈ okPairsC5, hget kv.1 batchOkState.store = some (dumps kv.2)) ∧
    (∃ st2, batch_commit badPairsC5 emptyDB = COut.fatal st2 ∧
      st2.bestCache = emptyDB.bestCache) := by
  obtain ⟨h1, _⟩ := claim5_batch_commit okPairsC5 emptyDB
  obtain ⟨_, h4⟩ := claim5_batch_commit badPairsC5 emptyDB
  exact ⟨h1 batchOkState (by decide), h4 (by decide)⟩


/-- C6: for every commit sequence against the Redis-backed store, `persist()`
followed by `load()` on a fresh instance with the same file reproduces a store
with the same lookups for every key — hence the same key set and, for each
key, a query answer (the deserialized `Result`) equal in all fields to the one
committed; and for the local-file variant, the encode-on-persist /
decode-on-load pass reproduces the stored mapping exactly. -/
theorem claim6_roundtrip (ps : List (String × Value)) (db : List (String × Value)) :
    (∀ k, hget k (redisLoadStore (redisPersist (commitSeq ps emptyDB))) =
      hget k (commitSeq ps emptyDB).store) ∧
    (∀ k, k ∈ (redisLoadStore (redisPersist (commitSeq ps emptyDB))).map Prod.fst ↔
      k ∈ (commitSeq ps emptyDB).store.map Prod.fst) ∧
    (∀ k, redisQueryE k (redisLoadStore (redisPersist (commitSeq ps emptyDB))) =
      redisQueryE k (commitSeq ps emptyDB).store) ∧
    pickleLoad (picklePersist db) = db := by
  have hnd : ((commitSeq ps emptyDB).store.map Prod.fst).Nodup :=
    commitSeq_store_nodup ps (by simp [emptyDB])
  have hkey : ∀ k, hget k (redisLoadStore (redisPersist (commitSeq ps emptyDB))) =
      hget k (commitSeq ps emptyDB).store := by
    intro k
    simp only [redisLoadStore, redisPersist]
    cases hq : hget k (commitSeq ps emptyDB).store with
    | some b => exact hget_hmset_of_mem [] hnd (hget_some_mem hq)
    | none =>
      rw [hget_hmset_notmem _ ((hget_none_iff _ _).mp hq)]
      rfl
  refine ⟨hkey, ?_, ?_, ?_⟩
  · intro k
    have hiff : ∀ (s : List (String × Blob)),
        k ∈ s.map Prod.fst ↔ ¬hget k s = none := by
      intro s
      rw [hget_none_iff]
      tauto
    rw [hiff, hiff, hkey k]
  · intro k
    simp only [redisQueryE]
    rw [hkey k]
  · induction db with
    | nil => rfl
    | cons kv rest ih =>
      simp only [pickleLoad, picklePersist, List.map_cons] at ih ⊢
      rw [ih]
      rfl

/-- C7: `Database.commit` over an abstract backend adapter: when the adapter
write reports failure a fatal `RuntimeError` is raised and the best cache is
left exactly as it was; when the write succeeds, the best cache receives the
new `(quality, timestamp, result)` entry if and only if the committed value is
a `Result` instance, and the Redis adapter instantiates the success case. -/
theorem claim7_commit (impl : List (String × Blob) → Option (List (String × Blob)))
    (k : String) (v : Value) (st : DBState) :
    (impl st.store = none →
      ∃ stf, databaseCommit impl v st = COut.fatal stf ∧
        stf.bestCache = st.bestCache) ∧
    (∀ s2, impl st.store = some s2 → ∃ st2,
      databaseCommit impl v st = COut.ok st2 ∧
      st2.store = s2 ∧
      st2.bestCache = (match v with
        | Value.res r => st.bestCache ++ [(r.quality, st.clock, r)]
        | _ => st.bestCache)) ∧
    databaseCommit (redisCommitImpl k v) v st =
      COut.ok (redisCommit k v st) := by
  refine ⟨?_, ?_, ?_⟩
  · intro hf
    exact ⟨st, by simp [databaseCommit, hf], rfl⟩
  · intro s2 hs
    cases v with
    | res r =>
      refine ⟨update_best r { st with store := s2 }, ?_, ?_, ?_⟩
      · simp [databaseCommit, hs]
      · simp [update_best]
      · simp [update_best]
    | boolVal b =>
      refine ⟨{ st with store := s2 }, ?_, rfl, rfl⟩
      simp [databaseCommit, hs]
    | rawStr s3 =>
      refine ⟨{ st with store := s2 }, ?_, rfl, rfl⟩
      simp [databaseCommit, hs]
  · cases v <;> rfl

/-- C7 witness: the theorem applied to the always-failing adapter (fatal, cache
untouched) and to the Redis adapter storing a result under a concrete key
(success, entry appended). -/
theorem claim7_witness :
    (∃ stf, databaseCommit (fun _ => none) (Value.res rQualOne) emptyDB =
      COut.fatal stf ∧ stf.bestCache = emptyDB.bestCache) ∧
    (∃ st2, databaseCommit (redisCommitImpl "x" (Value.res rQualOne))
        (Value.res rQualOne) emptyDB = COut.ok st2 ∧
      st2.store = hset "x" (dumps (Value.res rQualOne)) emptyDB.store ∧
      st2.bestCache = emptyDB.bestCache ++
        [(rQualOne.quality, emptyDB.clock, rQualOne)]) := by
  obtain ⟨h1, _, _⟩ :=
    claim7_commit (fun _ => none) "x" (Value.res rQualOne) emptyDB
  obtain ⟨_, g2, _⟩ :=
    claim7_commit (redisCommitImpl "x" (Value.res rQualOne)) "x"
      (Value.res rQualOne) emptyDB
  exact ⟨h1 rfl, g2 (hset "x" (dumps (Value.res rQualOne)) emptyDB.store) rfl⟩

/-- C8 (code bug): evaluating `RedisDatabase.query` at the failing input — a
key whose stored bytes are corrupt — shows the call raising the
`UnpicklingError`/`EOFError` that `pickle.loads` produces, because the
`except ValueError` clause at `database.py` lines 310-311 does not catch it,
even though that clause's own log message ("Failed to deserialize the result
of ...") shows soft handling was the intent; the claimed behavior (absent,
logged, no exception) therefore fails on this input. Queries for
never-committed keys do answer `None` in both variants, as the claim
states. -/
theorem claim8_corrupt_raises :
    redisQueryE "c1" storeC8 = Except.error PyExc.unpicklingError ∧
    redisQueryE "missing" storeC8 = Except.ok none ∧
    pickle_query "missing" ([] : List (String × Value)) = none :=
  ⟨rfl, rfl, rfl⟩

/-- C9 (code bug): evaluating `RedisDatabase.batch_query` at the failing
input — a key list whose second key holds corrupt bytes — shows one corrupt
record aborting the whole call: the `except ValueError` at `database.py` line
326 does not catch the `UnpicklingError`/`EOFError` raised by `pickle.loads`,
so no slot sequence is returned at all, instead of the claimed one slot per
key with `None` at the corrupt position. Without the corrupt record the same
store answers one slot per key in input order, and the local-file variant
always produces one slot per key. -/
theorem claim9_corrupt_aborts :
    redisBatchQuery ["k1", "k2"] storeC9 = Except.error PyExc.unpicklingError ∧
    redisBatchQuery ["k1"] storeC9 = Except.ok [some (Value.res rQualOne)] ∧
    pickle_batch_query ["k1", "k2"] [("k1", Value.res rQualOne)] =
      [some (Value.res rQualOne), none] :=
  ⟨rfl, rfl, rfl⟩

/-- C10: in the local-file backend the query interface answers `None` exactly
when the fetched value is a boolean: a committed key answers `None` if and
only if its stored value is a boolean, a boolean committed under a key is
queried as `None`, a never-committed key is queried as `None` (pickledb hands
back the boolean `False` sentinel), and `batch_query` answers the same `None`
in the corresponding slot — so a committed boolean is indistinguishable from a
never-committed key. -/
theorem claim10_bool_absent (k : String) (db : List (String × Value))
    (v : Value) (b : Bool) :
    (hget k db = some v → (pickle_query k db = none ↔ v.isBool = true)) ∧
    pickle_query k (pickleCommitImpl k (Value.boolVal b) db) = none ∧
    (hget k db = none → pickle_query k db = none) ∧
    pickle_batch_query [k] db = [pickle_query k db] := by
  refine ⟨?_, ?_, ?_, ?_⟩
  · intro h
    cases v <;> simp [pickle_query, pickledbGet, h, Value.isBool]
  · simp [pickle_query, pickledbGet, pickleCommitImpl, hget_hset_self, Value.isBool]
  · intro h
    simp [pickle_query, pickledbGet, h, Value.isBool]
  · simp [pickle_batch_query, pickle_query]

/-- C10 witness: the theorem applied to the concrete store holding a boolean
under key `k1`: the committed boolean is queried as `None`, exactly as a
missing key is. -/
theorem claim10_witness :
    (pickle_query "k1" [("k1", Value.boolVal true)] = none ↔
      (Value.boolVal true).isBool = true) ∧
    (pickle_query "k2" [("k1", Value.boolVal true)] = none) ∧
    pickle_batch_query ["k1"] [("k1", Value.boolVal true)] =
      [pickle_query "k1" [("k1", Value.boolVal true)]] := by
  obtain ⟨h1, _, _, h4⟩ :=
    claim10_bool_absent "k1" [("k1", Value.boolVal true)] (Value.boolVal true) true
  obtain ⟨_, _, g3, _⟩ :=
    claim10_bool_absent "k2" [("k1", Value.boolVal true)] (Value.boolVal true) true
  exact ⟨h1 (by decide), g3 (by decide), h4⟩

end Autodse
